import Mathlib

/-!
Verification of the TaskFlow backend (projects → boards → tasks hierarchy).

The development shallowly embeds the Express/Prisma handlers of the
repository.  The relational store is modelled as an explicit `Db` record of
rows; `prisma.$transaction` is modelled by applying the queued updates
sequentially to a working copy and discarding the copy when any update
fails, which is exactly the all-or-nothing commit the store provides.
Timestamps are not modelled: no ordering or CRUD claim refers to them.
HTTP responses are modelled by their status codes.
-/

namespace TaskFlow

/-- Stored Project row (model Project of the Prisma schema). -/
structure Project where
  id : String
  name : String
  authorId : String
deriving DecidableEq, Repr

/-- Stored Board row (model Board of the Prisma schema): integer `order`
among the boards of one project, parent reference `projectId`. -/
structure Board where
  id : String
  name : String
  order : Int
  projectId : String
deriving DecidableEq, Repr

/-- Stored Task row (model Task of the Prisma schema): integer `order`
among the tasks of one board, parent reference `boardId`. -/
structure Task where
  id : String
  title : String
  description : Option String
  order : Int
  boardId : String
deriving DecidableEq, Repr

/-- The relational store: one list of rows per table.  List order models the
arbitrary physical row order; every handler that cares about order sorts or
scans explicitly, as the source does via `orderBy`. -/
structure Db where
  projects : List Project
  boards : List Board
  tasks : List Task
deriving DecidableEq, Repr

/-- Lookup of a project row by primary key (`prisma.project.findUnique`). -/
def Db.findProject (db : Db) (pid : String) : Option Project :=
  db.projects.find? (fun p => p.id = pid)

/-- Lookup of a board row by primary key. -/
def Db.findBoard (db : Db) (bid : String) : Option Board :=
  db.boards.find? (fun b => b.id = bid)

/-- Lookup of a task row by primary key. -/
def Db.findTask (db : Db) (tid : String) : Option Task :=
  db.tasks.find? (fun t => t.id = tid)

/-- The boards of one project: `prisma.board.findMany (where projectId)`. -/
def Db.boardsOf (db : Db) (pid : String) : List Board :=
  db.boards.filter (fun b => b.projectId = pid)

/-- The tasks of one board: `prisma.task.findMany (where boardId)`. -/
def Db.tasksOf (db : Db) (bid : String) : List Task :=
  db.tasks.filter (fun t => t.boardId = bid)

/-- Comparison used by `orderBy order asc` on tasks. -/
def taskLE (a b : Task) : Prop := a.order ≤ b.order

instance : DecidableRel taskLE := fun a b =>
  inferInstanceAs (Decidable (a.order ≤ b.order))

instance : IsTotal Task taskLE := ⟨fun a b => Int.le_total a.order b.order⟩

instance : IsTrans Task taskLE := ⟨fun _ _ _ hab hbc => le_trans hab hbc⟩

/-- GET /api/boards/:boardId/tasks — the board's tasks sorted by `order`
ascending (`orderBy order asc`). -/
def getBoardTasks (db : Db) (bid : String) : List Task :=
  List.insertionSort taskLE (db.tasksOf bid)

/-- Embedding of `prisma.board.findFirst (where projectId, orderBy order desc)`:
some board of the project whose `order` is maximal, `none` when the project
has no boards.  Only its `order` field is consumed by the source. -/
def lastBoardByOrder : List Board → Option Board
  | [] => none
  | b :: bs =>
    match lastBoardByOrder bs with
    | none => some b
    | some u => if b.order < u.order then some u else some b

/-- Embedding of `prisma.task.findFirst (where boardId, orderBy order desc)`. -/
def lastTaskByOrder : List Task → Option Task
  | [] => none
  | t :: ts =>
    match lastTaskByOrder ts with
    | none => some t
    | some u => if t.order < u.order then some u else some t

/-- The `lastBoard ? lastBoard.order + 1 : 0` computation of the board
creation handler. -/
def nextBoardOrder (siblings : List Board) : Int :=
  match lastBoardByOrder siblings with
  | some last => last.order + 1
  | none => 0

/-- The `lastTask ? lastTask.order + 1 : 0` computation of the task creation
handler. -/
def nextTaskOrder (siblings : List Task) : Int :=
  match lastTaskByOrder siblings with
  | some last => last.order + 1
  | none => 0

/-- POST /api/projects/:projectId/boards.  Empty `name` models the falsy
`!name` check (400).  The store rejects a dangling `projectId` (foreign key)
and the handler maps the store error to 500; `newId` stands for the fresh
cuid the store mints.  Returns the response status and the new store. -/
def createBoard (db : Db) (projectId : String) (newId : String) (name : String) :
    Nat × Db :=
  if name = "" then (400, db)
  else
    let newOrder := nextBoardOrder (db.boardsOf projectId)
    if db.projects.any (fun p => p.id = projectId) then
      (201, { db with boards := db.boards ++ [⟨newId, name, newOrder, projectId⟩] })
    else (500, db)

/-- Normalisation `description: description || null` of the task creation
handler: a missing or empty description is stored as null. -/
def normalizeDescription : Option String → Option String
  | some s => if s = "" then none else some s
  | none => none

/-- POST /api/boards/:boardId/tasks.  Same shape as `createBoard`: 400 on a
falsy title, 500 when the store rejects the dangling `boardId`. -/
def createTask (db : Db) (boardId : String) (newId : String) (title : String)
    (description : Option String) : Nat × Db :=
  if title = "" then (400, db)
  else
    let newOrder := nextTaskOrder (db.tasksOf boardId)
    if db.boards.any (fun b => b.id = boardId) then
      (201, { db with tasks :=
        db.tasks ++ [⟨newId, title, normalizeDescription description, newOrder, boardId⟩] })
    else (500, db)

/-- PATCH /api/tasks/:taskId.  The body may carry `title` and `description`.
The data object is built by conditional spread: `title` is written only when
truthy (present and non-empty), `description` is written whenever the field
is present in the body, null included (`description !== undefined`).  The
outer `Option` of `description` is field presence, the inner one nullability.
A missing row makes `prisma.task.update` throw, mapped to 500 by the catch. -/
def updateTaskFields (db : Db) (taskId : String) (title : Option String)
    (description : Option (Option String)) : Nat × Db :=
  if db.tasks.any (fun t => t.id = taskId) then
    (200, { db with tasks := db.tasks.map (fun t =>
      if t.id = taskId then
        { t with
          title := match title with
            | some s => if s = "" then t.title else s
            | none => t.title
          description := match description with
            | some d => d
            | none => t.description }
      else t) })
  else (500, db)

/-- DELETE /api/projects/:projectId.  `prisma.project.delete` removes the
row; the schema's `onDelete: Cascade` (Board.project, Task.board) makes the
store also remove every board of the project and every task of those boards.
A missing project makes the delete throw, mapped to 500. -/
def deleteProject (db : Db) (pid : String) : Nat × Db :=
  if db.projects.any (fun p => p.id = pid) then
    let deadBoards := db.boards.filter (fun b => b.projectId = pid)
    (204, { projects := db.projects.filter (fun p => ¬ p.id = pid)
            boards := db.boards.filter (fun b => ¬ b.projectId = pid)
            tasks := db.tasks.filter (fun t => ¬ deadBoards.any (fun b => b.id = t.boardId)) })
  else (500, db)

/-- One element of the reorder request body.  The source only consumes `id`;
`id = ""` models an element whose `id` is missing or empty (falsy under the
`!task.id` check). -/
structure ReorderItem where
  id : String
deriving DecidableEq, Repr

/-- The queued updates of the reorder transaction, applied sequentially to a
working copy of the task table.  Each update is
`prisma.task.update` with where id and data order = index, boardId: it fails when
no row has the id (P2025) or when the new `boardId` dangles (foreign key),
and any failure aborts the whole transaction (`none`), leaving the store as
it was. -/
def applyReorderUpdates (boards : List Board) (newBoardId : String) :
    List Task → List (Nat × ReorderItem) → Option (List Task)
  | tasks, [] => some tasks
  | tasks, (i, item) :: rest =>
    if tasks.any (fun t => t.id = item.id) && boards.any (fun b => b.id = newBoardId) then
      applyReorderUpdates boards newBoardId
        (tasks.map (fun t =>
          if t.id = item.id then { t with order := (i : Int), boardId := newBoardId } else t))
        rest
    else none

/-- POST /api/tasks/reorder.  `orderedTasks = none` models a body whose
`orderedTasks` is not an array (`!Array.isArray`), `boardId = ""` a falsy
board id; both give 400 before anything runs.  An empty list returns 200 at
once.  The map then builds the update batch, throwing on the first element
with a falsy id — the throw happens before the transaction executes, so no
update runs, and the catch answers 500.  Otherwise the batch runs in one
transaction: on success 200 with the new table, on any failure 500 with the
store untouched. -/
def reorderTasksPost (db : Db) (boardId : String)
    (orderedTasks : Option (List ReorderItem)) : Nat × Db :=
  match orderedTasks with
  | none => (400, db)
  | some items =>
    if boardId = "" then (400, db)
    else if items.isEmpty then (200, db)
    else if items.any (fun it => it.id = "") then (500, db)
    else
      match applyReorderUpdates db.boards boardId db.tasks items.enum with
      | some ts => (200, { db with tasks := ts })
      | none => (500, db)

/-- Registry of the real-time channel, modelled (as the spec directs for the
room state of the pub/sub capability) as an explicit scope-to-subscriber
membership list: the pair `(scope, socketId)` records that the socket joined
the room named `scope`. -/
abbrev RoomRegistry := List (String × String)

/-- The `joinProject` handler of the connection: `socket.join(projectId)`. -/
def joinProject (r : RoomRegistry) (socketId : String) (projectId : String) :
    RoomRegistry :=
  (projectId, socketId) :: r

/-- Delivery set of `io.to(room).emit(...)`: every socket currently joined to
the room, and nobody else. -/
def emitToRoom (r : RoomRegistry) (room : String) : List String :=
  (List.filter (fun m => m.1 = room) r).map (fun m => m.2)

/-- Recipients of the `board:created` event the board creation handler
publishes on success: `io.to(projectId).emit ('board:created', newBoard)`. -/
def boardCreatedRecipients (r : RoomRegistry) (projectId : String) : List String :=
  emitToRoom r projectId

/-- Net effect of one reorder update batch on a single row, used to state the
closed form of `applyReorderUpdates`: the row matched by some queued pair
ends with that pair's index as `order` and the request's board as parent,
any other row is untouched. -/
def reorderFinal (newBoardId : String) (pairs : List (Nat × ReorderItem)) (t : Task) : Task :=
  match pairs.find? (fun p => p.2.id = t.id) with
  | some p => { t with order := (p.1 : Int), boardId := newBoardId }
  | none => t

/-- Serial issuance of task creation requests against the same board: each
request runs against the store the previous one left behind. -/
def runTaskCreates (boardId : String) : Db → List (String × String) → Db
  | db, [] => db
  | db, (nid, title) :: rest => runTaskCreates boardId (createTask db boardId nid title none).2 rest

/-- Serial issuance of board creation requests against the same project. -/
def runBoardCreates (projectId : String) : Db → List (String × String) → Db
  | db, [] => db
  | db, (nid, name) :: rest => runBoardCreates projectId (createBoard db projectId nid name).2 rest

/-- Concrete store with one project, one board and one task, used to
instantiate hypotheses of the general theorems. -/
def dbOne : Db :=
  ⟨[⟨"P1", "proj", "U1"⟩], [⟨"B1", "todo", 0, "P1"⟩], [⟨"T1", "task one", none, 0, "B1"⟩]⟩

/-- Concrete store with two boards under one project and one task that lives
on the second board. -/
def dbTwoBoards : Db :=
  ⟨[⟨"P1", "proj", "U1"⟩],
   [⟨"B1", "todo", 0, "P1"⟩, ⟨"B2", "doing", 1, "P1"⟩],
   [⟨"T1", "task one", none, 0, "B2"⟩]⟩

/-- Concrete store with one board holding two tasks in orders 0 and 1. -/
def dbTwoTasks : Db :=
  ⟨[⟨"P1", "proj", "U1"⟩],
   [⟨"B1", "todo", 0, "P1"⟩],
   [⟨"T1", "task one", none, 0, "B1"⟩, ⟨"T2", "task two", none, 1, "B1"⟩]⟩

/-- Concrete store with two projects, no board under the first project and
one board — with no tasks — under the second, used for the serial-creation
claim. -/
def dbFresh : Db :=
  ⟨[⟨"P1", "proj one", "U1"⟩, ⟨"P2", "proj two", "U1"⟩],
   [⟨"B9", "todo", 0, "P2"⟩],
   []⟩

/-- Concrete store with two projects, each with a board, and a task on each
board; used to exercise the cascade delete. -/
def dbTwoProjects : Db :=
  ⟨[⟨"P1", "proj one", "U1"⟩, ⟨"P2", "proj two", "U1"⟩],
   [⟨"B1", "todo", 0, "P1"⟩, ⟨"B2", "todo", 0, "P2"⟩],
   [⟨"T1", "task one", none, 0, "B1"⟩, ⟨"T2", "task two", none, 0, "B2"⟩]⟩

/-! Helper lemmas about the reorder transaction. -/

theorem map_taskId_of_id_preserved {f : Task → Task} (hf : ∀ t, (f t).id = t.id) :
    ∀ l : List Task, (l.map f).map Task.id = l.map Task.id := by
  intro l
  induction l with
  | nil => rfl
  | cons t ts ih => simp [hf, ih]

theorem applyReorderUpdates_eq_none (boards : List Board) (B : String) :
    ∀ (pairs : List (Nat × ReorderItem)) (tasks : List Task),
      (∃ p ∈ pairs, ∀ t ∈ tasks, t.id ≠ p.2.id) →
      applyReorderUpdates boards B tasks pairs = none := by
  intro pairs
  induction pairs with
  | nil =>
    intro tasks h
    obtain ⟨p, hp, _⟩ := h
    exact absurd hp (List.not_mem_nil p)
  | cons head rest ih =>
    obtain ⟨i, item⟩ := head
    intro tasks h
    obtain ⟨p, hp, hnot⟩ := h
    simp only [applyReorderUpdates]
    rcases List.mem_cons.mp hp with hpe | hpr
    · subst hpe
      have hany : tasks.any (fun t => t.id = item.id) = false := by
        rw [List.any_eq_false]
        intro t ht
        simpa using hnot t ht
      simp [hany]
    · by_cases hcond :
        (tasks.any (fun t => t.id = item.id) && boards.any (fun b => b.id = B)) = true
      · rw [if_pos hcond]
        apply ih
        refine ⟨p, hpr, ?_⟩
        intro t ht
        obtain ⟨t0, ht0, rfl⟩ := List.mem_map.mp ht
        have hid : (if t0.id = item.id then
            { t0 with order := (i : Int), boardId := B } else t0).id = t0.id := by
          split <;> rfl
        rw [hid]
        exact hnot t0 ht0
      · rw [if_neg hcond]

theorem exists_enumFrom_pair {α : Type} (a : α) :
    ∀ (l : List α) (n : Nat), a ∈ l → ∃ i, (i, a) ∈ l.enumFrom n := by
  intro l
  induction l with
  | nil =>
    intro n h
    cases h
  | cons b t ih =>
    intro n h
    rcases List.mem_cons.mp h with rfl | ht
    · exact ⟨n, List.mem_cons.mpr (Or.inl rfl)⟩
    · obtain ⟨i, hi⟩ := ih (n + 1) ht
      exact ⟨i, List.mem_cons.mpr (Or.inr hi)⟩

/-- C1: if any single update of a reorder batch fails — here, some submitted
id matches no stored task — the whole transaction rolls back: the store is
exactly what it was before the request and the response is not a success. -/
theorem reorder_failed_update_rolls_back (db : Db) (boardId : String)
    (items : List ReorderItem)
    (h : ∃ it ∈ items, ∀ t ∈ db.tasks, t.id ≠ it.id) :
    (reorderTasksPost db boardId (some items)).2 = db ∧
    (reorderTasksPost db boardId (some items)).1 ≠ 200 := by
  obtain ⟨it, hit, hmiss⟩ := h
  by_cases hB : boardId = ""
  · simp [reorderTasksPost, hB]
  · have hne : items.isEmpty = false := by
      cases items with
      | nil => cases hit
      | cons a t => rfl
    by_cases hblank : items.any (fun x => x.id = "") = true
    · simp [reorderTasksPost, hB, hne, hblank]
    · have hnone : applyReorderUpdates db.boards boardId db.tasks items.enum = none := by
        apply applyReorderUpdates_eq_none
        obtain ⟨i, hi⟩ := exists_enumFrom_pair it items 0 hit
        exact ⟨(i, it), hi, hmiss⟩
      simp [reorderTasksPost, hB, hne, hblank, hnone]

theorem reorder_failed_update_rolls_back_witness :
    (reorderTasksPost dbTwoTasks "B1" (some [⟨"T2"⟩, ⟨"missing"⟩])).2 = dbTwoTasks ∧
    (reorderTasksPost dbTwoTasks "B1" (some [⟨"T2"⟩, ⟨"missing"⟩])).1 ≠ 200 :=
  reorder_failed_update_rolls_back dbTwoTasks "B1" [⟨"T2"⟩, ⟨"missing"⟩] (by decide)

/-- C7: a reorder request with an empty list (and a non-empty board id) is a
no-op success: status 200 and a store identical to the one before. -/
theorem reorder_empty_list_noop (db : Db) (boardId : String) (h : boardId ≠ "") :
    reorderTasksPost db boardId (some []) = (200, db) := by
  simp [reorderTasksPost, h]

theorem reorder_empty_list_noop_witness :
    reorderTasksPost dbTwoTasks "B1" (some []) = (200, dbTwoTasks) :=
  reorder_empty_list_noop dbTwoTasks "B1" (by decide)

/-- C3 counterexample: an element with a missing id makes the handler answer
500 — the catch block maps the thrown validation error to a generic store
failure — not any 4xx status, refuting the claimed InvalidInput classification. -/
theorem reorder_blank_id_counterexample :
    (reorderTasksPost dbOne "B1" (some [⟨"T1"⟩, ⟨""⟩])).1 = 500 ∧
    ¬ (400 ≤ (reorderTasksPost dbOne "B1" (some [⟨"T1"⟩, ⟨""⟩])).1 ∧
        (reorderTasksPost dbOne "B1" (some [⟨"T1"⟩, ⟨""⟩])).1 < 500) := by
  decide

/-- C3 amended: an element lacking a non-empty id fails the whole request
before any mutation is attempted — the store comes back untouched — but the
reported status is the generic 500, not a 4xx InvalidInput. -/
theorem reorder_blank_id_fails_500_unmutated (db : Db) (boardId : String)
    (items : List ReorderItem) (hB : boardId ≠ "")
    (h : ∃ it ∈ items, it.id = "") :
    reorderTasksPost db boardId (some items) = (500, db) := by
  obtain ⟨it, hit, hid⟩ := h
  have hne : items.isEmpty = false := by
    cases items with
    | nil => cases hit
    | cons a t => rfl
  have hany : items.any (fun x => x.id = "") = true := by
    rw [List.any_eq_true]
    exact ⟨it, hit, by simp [hid]⟩
  simp [reorderTasksPost, hB, hne, hany]

theorem reorder_blank_id_fails_500_unmutated_witness :
    reorderTasksPost dbOne "B1" (some [⟨"T1"⟩, ⟨""⟩]) = (500, dbOne) :=
  reorder_blank_id_fails_500_unmutated dbOne "B1" [⟨"T1"⟩, ⟨""⟩] (by decide) (by decide)

/-- C9: the `board:created` event published on scope X is delivered to every
subscriber currently joined to room X, and to no subscriber all of whose
memberships are to rooms other than X. -/
theorem board_created_event_scoped (r : RoomRegistry) (s x : String) :
    ((x, s) ∈ r → s ∈ boardCreatedRecipients r x) ∧
    ((∀ m ∈ r, m.2 = s → m.1 ≠ x) → s ∉ boardCreatedRecipients r x) := by
  constructor
  · intro h
    simp only [boardCreatedRecipients, emitToRoom, List.mem_map, List.mem_filter]
    exact ⟨(x, s), ⟨h, by simp⟩, rfl⟩
  · intro h hmem
    simp only [boardCreatedRecipients, emitToRoom, List.mem_map, List.mem_filter] at hmem
    obtain ⟨m, ⟨hm, hr⟩, hs⟩ := hmem
    exact h m hm hs (by simpa using hr)

theorem board_created_event_scoped_witness :
    "S1" ∈ boardCreatedRecipients (joinProject (joinProject [] "S2" "Y") "S1" "X") "X" ∧
    "S2" ∉ boardCreatedRecipients (joinProject (joinProject [] "S2" "Y") "S1" "X") "X" :=
  ⟨(board_created_event_scoped (joinProject (joinProject [] "S2" "Y") "S1" "X") "S1" "X").1
      (by decide),
   (board_created_event_scoped (joinProject (joinProject [] "S2" "Y") "S1" "X") "S2" "X").2
      (by decide)⟩

theorem findTask_map_preserving (f : Task → Task) (hf : ∀ u, (f u).id = u.id)
    (tid : String) :
    ∀ l : List Task, (l.map f).find? (fun u => u.id = tid)
      = (l.find? (fun u => u.id = tid)).map f := by
  intro l
  induction l with
  | nil => rfl
  | cons u us ih =>
    by_cases h : u.id = tid
    · simp [List.find?_cons, hf, h]
    · simp [List.find?_cons, hf, h, ih]

/-- C10: updating an existing task always answers 200, also with a body that
carries neither field; an empty title is silently ignored, a description
present in the body (null included) replaces the stored one, and the task's
other fields as well as every other row are untouched. -/
theorem update_task_partial_fields (db : Db) (tid : String) (t : Task)
    (ht : db.findTask tid = some t) (title : Option String)
    (descr : Option (Option String)) :
    (updateTaskFields db tid title descr).1 = 200 ∧
    (updateTaskFields db tid title descr).2.findTask tid = some
      { t with
        title := match title with
          | some s => if s = "" then t.title else s
          | none => t.title
        description := match descr with
          | some d => d
          | none => t.description } ∧
    (∀ u ∈ db.tasks, u.id ≠ tid → u ∈ (updateTaskFields db tid title descr).2.tasks) ∧
    (updateTaskFields db tid title descr).2.projects = db.projects ∧
    (updateTaskFields db tid title descr).2.boards = db.boards := by
  have htmem : t ∈ db.tasks := List.mem_of_find?_eq_some ht
  have htid : t.id = tid := by
    have := List.find?_some ht
    simpa using this
  have hany : db.tasks.any (fun u => u.id = tid) = true := by
    rw [List.any_eq_true]
    exact ⟨t, htmem, by simp [htid]⟩
  have hf : ∀ u : Task, ((fun u : Task =>
      if u.id = tid then
        { u with
          title := match title with
            | some s => if s = "" then u.title else s
            | none => u.title
          description := match descr with
            | some d => d
            | none => u.description }
      else u) u).id = u.id := by
    intro u
    by_cases h : u.id = tid
    · simp [h]
    · simp [h]
  refine ⟨by simp [updateTaskFields, hany], ?_, ?_, ?_, ?_⟩
  · show Db.findTask _ tid = _
    simp only [updateTaskFields, hany, if_true, Db.findTask]
    rw [findTask_map_preserving _ hf tid]
    have hfind : db.tasks.find? (fun u => u.id = tid) = some t := ht
    rw [hfind]
    simp [htid]
  · intro u hu hune
    simp only [updateTaskFields, hany, if_true]
    refine List.mem_map.mpr ⟨u, hu, ?_⟩
    simp [hune]
  · simp [updateTaskFields, hany]
  · simp [updateTaskFields, hany]

theorem update_task_partial_fields_witness :
    (updateTaskFields dbOne "T1" (some "") (some (some "desc"))).1 = 200 ∧
    (updateTaskFields dbOne "T1" (some "") (some (some "desc"))).2.findTask "T1" = some
      ⟨"T1", "task one", some "desc", 0, "B1"⟩ ∧
    (∀ u ∈ dbOne.tasks, u.id ≠ "T1" →
      u ∈ (updateTaskFields dbOne "T1" (some "") (some (some "desc"))).2.tasks) ∧
    (updateTaskFields dbOne "T1" (some "") (some (some "desc"))).2.projects = dbOne.projects ∧
    (updateTaskFields dbOne "T1" (some "") (some (some "desc"))).2.boards = dbOne.boards :=
  update_task_partial_fields dbOne "T1" ⟨"T1", "task one", none, 0, "B1"⟩ (by decide)
    (some "") (some (some "desc"))

/-! Helper lemmas about the findFirst-by-descending-order reads. -/

theorem lastBoardByOrder_eq_none : ∀ l : List Board, lastBoardByOrder l = none ↔ l = [] := by
  intro l
  cases l with
  | nil => simp [lastBoardByOrder]
  | cons b bs =>
    simp only [lastBoardByOrder]
    cases lastBoardByOrder bs with
    | none => simp
    | some u => by_cases h : b.order < u.order <;> simp [h]

theorem lastTaskByOrder_eq_none : ∀ l : List Task, lastTaskByOrder l = none ↔ l = [] := by
  intro l
  cases l with
  | nil => simp [lastTaskByOrder]
  | cons t ts =>
    simp only [lastTaskByOrder]
    cases lastTaskByOrder ts with
    | none => simp
    | some u => by_cases h : t.order < u.order <;> simp [h]

theorem lastBoardByOrder_spec :
    ∀ (l : List Board) (u : Board), lastBoardByOrder l = some u →
      u ∈ l ∧ ∀ c ∈ l, c.order ≤ u.order := by
  intro l
  induction l with
  | nil =>
    intro u h
    cases h
  | cons b bs ih =>
    intro u h
    simp only [lastBoardByOrder] at h
    cases hbs : lastBoardByOrder bs with
    | none =>
      rw [hbs] at h
      simp only [] at h
      injection h with h
      subst h
      have hnil : bs = [] := (lastBoardByOrder_eq_none bs).mp hbs
      subst hnil
      simp
    | some v =>
      rw [hbs] at h
      simp only [] at h
      obtain ⟨hvmem, hvbound⟩ := ih v hbs
      by_cases hlt : b.order < v.order
      · rw [if_pos hlt] at h
        injection h with h
        subst h
        refine ⟨List.mem_cons.mpr (Or.inr hvmem), ?_⟩
        intro c hc
        rcases List.mem_cons.mp hc with rfl | hcs
        · exact le_of_lt hlt
        · exact hvbound c hcs
      · rw [if_neg hlt] at h
        injection h with h
        subst h
        refine ⟨List.mem_cons.mpr (Or.inl rfl), ?_⟩
        intro c hc
        rcases List.mem_cons.mp hc with rfl | hcs
        · exact le_refl _
        · exact le_trans (hvbound c hcs) (not_lt.mp hlt)

theorem lastTaskByOrder_spec :
    ∀ (l : List Task) (u : Task), lastTaskByOrder l = some u →
      u ∈ l ∧ ∀ c ∈ l, c.order ≤ u.order := by
  intro l
  induction l with
  | nil =>
    intro u h
    cases h
  | cons t ts ih =>
    intro u h
    simp only [lastTaskByOrder] at h
    cases hts : lastTaskByOrder ts with
    | none =>
      rw [hts] at h
      simp only [] at h
      injection h with h
      subst h
      have hnil : ts = [] := (lastTaskByOrder_eq_none ts).mp hts
      subst hnil
      simp
    | some v =>
      rw [hts] at h
      simp only [] at h
      obtain ⟨hvmem, hvbound⟩ := ih v hts
      by_cases hlt : t.order < v.order
      · rw [if_pos hlt] at h
        injection h with h
        subst h
        refine ⟨List.mem_cons.mpr (Or.inr hvmem), ?_⟩
        intro c hc
        rcases List.mem_cons.mp hc with rfl | hcs
        · exact le_of_lt hlt
        · exact hvbound c hcs
      · rw [if_neg hlt] at h
        injection h with h
        subst h
        refine ⟨List.mem_cons.mpr (Or.inl rfl), ?_⟩
        intro c hc
        rcases List.mem_cons.mp hc with rfl | hcs
        · exact le_refl _
        · exact le_trans (hvbound c hcs) (not_lt.mp hlt)

/-- C5: a board created under a project, and a task created under a board,
is assigned an order one greater than the maximum existing order among the
parent's direct children at the time of the fresh read, or 0 when the parent
has no children. -/
theorem create_assigns_next_order (db : Db) (pid bid nid : String)
    (name title : String) (descr : Option String)
    (hname : name ≠ "") (htitle : title ≠ "")
    (hp : db.projects.any (fun p => p.id = pid) = true)
    (hb : db.boards.any (fun b => b.id = bid) = true) :
    (∃ o : Int,
      createBoard db pid nid name
        = (201, { db with boards := db.boards ++ [⟨nid, name, o, pid⟩] }) ∧
      (db.boardsOf pid = [] → o = 0) ∧
      (∀ c ∈ db.boardsOf pid, c.order < o) ∧
      (db.boardsOf pid ≠ [] → ∃ c ∈ db.boardsOf pid, o = c.order + 1)) ∧
    (∃ o : Int,
      createTask db bid nid title descr
        = (201, { db with tasks :=
            db.tasks ++ [⟨nid, title, normalizeDescription descr, o, bid⟩] }) ∧
      (db.tasksOf bid = [] → o = 0) ∧
      (∀ c ∈ db.tasksOf bid, c.order < o) ∧
      (db.tasksOf bid ≠ [] → ∃ c ∈ db.tasksOf bid, o = c.order + 1)) := by
  constructor
  · refine ⟨nextBoardOrder (db.boardsOf pid), ?_, ?_, ?_, ?_⟩
    · simp [createBoard, hname, hp]
    · intro hnil
      simp [nextBoardOrder, (lastBoardByOrder_eq_none _).mpr hnil]
    · intro c hc
      cases hlast : lastBoardByOrder (db.boardsOf pid) with
      | none =>
        rw [(lastBoardByOrder_eq_none _).mp hlast] at hc
        cases hc
      | some u =>
        have hcu : c.order ≤ u.order := (lastBoardByOrder_spec _ u hlast).2 c hc
        simp only [nextBoardOrder, hlast]
        omega
    · intro hne
      cases hlast : lastBoardByOrder (db.boardsOf pid) with
      | none => exact absurd ((lastBoardByOrder_eq_none _).mp hlast) hne
      | some u =>
        exact ⟨u, (lastBoardByOrder_spec _ u hlast).1, by simp [nextBoardOrder, hlast]⟩
  · refine ⟨nextTaskOrder (db.tasksOf bid), ?_, ?_, ?_, ?_⟩
    · simp [createTask, htitle, hb]
    · intro hnil
      simp [nextTaskOrder, (lastTaskByOrder_eq_none _).mpr hnil]
    · intro c hc
      cases hlast : lastTaskByOrder (db.tasksOf bid) with
      | none =>
        rw [(lastTaskByOrder_eq_none _).mp hlast] at hc
        cases hc
      | some u =>
        have hcu : c.order ≤ u.order := (lastTaskByOrder_spec _ u hlast).2 c hc
        simp only [nextTaskOrder, hlast]
        omega
    · intro hne
      cases hlast : lastTaskByOrder (db.tasksOf bid) with
      | none => exact absurd ((lastTaskByOrder_eq_none _).mp hlast) hne
      | some u =>
        exact ⟨u, (lastTaskByOrder_spec _ u hlast).1, by simp [nextTaskOrder, hlast]⟩

theorem create_assigns_next_order_witness :
    (∃ o : Int,
      createBoard dbOne "P1" "N9" "done"
        = (201, { dbOne with boards := dbOne.boards ++ [⟨"N9", "done", o, "P1"⟩] }) ∧
      (dbOne.boardsOf "P1" = [] → o = 0) ∧
      (∀ c ∈ dbOne.boardsOf "P1", c.order < o) ∧
      (dbOne.boardsOf "P1" ≠ [] → ∃ c ∈ dbOne.boardsOf "P1", o = c.order + 1)) ∧
    (∃ o : Int,
      createTask dbOne "B1" "N9" "task nine" none
        = (201, { dbOne with tasks :=
            dbOne.tasks ++ [⟨"N9", "task nine", normalizeDescription none, o, "B1"⟩] }) ∧
      (dbOne.tasksOf "B1" = [] → o = 0) ∧
      (∀ c ∈ dbOne.tasksOf "B1", c.order < o) ∧
      (dbOne.tasksOf "B1" ≠ [] → ∃ c ∈ dbOne.tasksOf "B1", o = c.order + 1)) :=
  create_assigns_next_order dbOne "P1" "B1" "N9" "done" "task nine" none
    (by decide) (by decide) (by decide) (by decide)

/-! Helper lemmas for the serial-creation claim. -/

theorem nextTaskOrder_of_orders_range (k : Nat) (l : List Task)
    (h : l.map Task.order = (List.range k).map Int.ofNat) :
    nextTaskOrder l = (k : Int) := by
  cases k with
  | zero =>
    have hnil : l = [] := by
      cases l with
      | nil => rfl
      | cons a t => simp at h
    subst hnil
    simp [nextTaskOrder, lastTaskByOrder]
  | succ j =>
    have hne : l ≠ [] := by
      intro hl
      rw [hl] at h
      rw [List.range_succ] at h
      simp at h
    cases hlast : lastTaskByOrder l with
    | none => exact absurd ((lastTaskByOrder_eq_none _).mp hlast) hne
    | some u =>
      obtain ⟨hm, hbd⟩ := lastTaskByOrder_spec _ u hlast
      have humem : u.order ∈ l.map Task.order := List.mem_map_of_mem _ hm
      rw [h] at humem
      obtain ⟨n, hn, hnu⟩ := List.mem_map.mp humem
      have hnlt : n < j + 1 := List.mem_range.mp hn
      have hjmem : ((j : Int)) ∈ l.map Task.order := by
        rw [h]
        exact List.mem_map.mpr ⟨j, List.mem_range.mpr (Nat.lt_succ_self j), rfl⟩
      obtain ⟨c, hc, hcj⟩ := List.mem_map.mp hjmem
      have hcu : c.order ≤ u.order := hbd c hc
      have hle1 : j ≤ n := by
        rw [← hnu, hcj, Int.ofNat_eq_natCast] at hcu
        exact_mod_cast hcu
      have hnj : n = j := by omega
      subst hnj
      simp only [nextTaskOrder, hlast]
      rw [← hnu]
      simp

theorem runTaskCreates_orders (bid : String) :
    ∀ (creates : List (String × String)) (db : Db) (k : Nat),
      (db.tasksOf bid).map Task.order = (List.range k).map Int.ofNat →
      db.boards.any (fun b => b.id = bid) = true →
      (∀ c ∈ creates, c.2 ≠ "") →
      ((runTaskCreates bid db creates).tasksOf bid).map Task.order
        = (List.range (k + creates.length)).map Int.ofNat := by
  intro creates
  induction creates with
  | nil =>
    intro db k h hb _
    simpa using h
  | cons c rest ih =>
    obtain ⟨nid, title⟩ := c
    intro db k h hb htitles
    have htitle : title ≠ "" := htitles (nid, title) (List.mem_cons.mpr (Or.inl rfl))
    have hnext : nextTaskOrder (db.tasksOf bid) = (k : Int) :=
      nextTaskOrder_of_orders_range k _ h
    have hstep : (createTask db bid nid title none).2
        = { db with tasks := db.tasks ++ [⟨nid, title, none, (k : Int), bid⟩] } := by
      simp [createTask, htitle, hb, hnext, normalizeDescription]
    have hsplit : ({ db with tasks := db.tasks ++ [⟨nid, title, none, (k : Int), bid⟩] } :
        Db).tasksOf bid = db.tasksOf bid ++ [⟨nid, title, none, (k : Int), bid⟩] := by
      simp [Db.tasksOf, List.filter_append]
    have h1 : (({ db with tasks := db.tasks ++ [⟨nid, title, none, (k : Int), bid⟩] } : Db).tasksOf
        bid).map Task.order = (List.range (k + 1)).map Int.ofNat := by
      rw [hsplit, List.map_append, h, List.range_succ, List.map_append]
      simp
    have h2 : ({ db with tasks := db.tasks ++ [⟨nid, title, none, (k : Int), bid⟩] } :
        Db).boards.any (fun b => b.id = bid) = true := hb
    have h3 : ∀ c ∈ rest, c.2 ≠ "" := fun c hc => htitles c (List.mem_cons.mpr (Or.inr hc))
    have := ih ({ db with tasks := db.tasks ++ [⟨nid, title, none, (k : Int), bid⟩] })
      (k + 1) h1 h2 h3
    rw [runTaskCreates, hstep]
    rw [List.length_cons, show k + (rest.length + 1) = k + 1 + rest.length from by omega]
    exact this

theorem nextBoardOrder_of_orders_range (k : Nat) (l : List Board)
    (h : l.map Board.order = (List.range k).map Int.ofNat) :
    nextBoardOrder l = (k : Int) := by
  cases k with
  | zero =>
    have hnil : l = [] := by
      cases l with
      | nil => rfl
      | cons a t => simp at h
    subst hnil
    simp [nextBoardOrder, lastBoardByOrder]
  | succ j =>
    have hne : l ≠ [] := by
      intro hl
      rw [hl] at h
      rw [List.range_succ] at h
      simp at h
    cases hlast : lastBoardByOrder l with
    | none => exact absurd ((lastBoardByOrder_eq_none _).mp hlast) hne
    | some u =>
      obtain ⟨hm, hbd⟩ := lastBoardByOrder_spec _ u hlast
      have humem : u.order ∈ l.map Board.order := List.mem_map_of_mem _ hm
      rw [h] at humem
      obtain ⟨n, hn, hnu⟩ := List.mem_map.mp humem
      have hnlt : n < j + 1 := List.mem_range.mp hn
      have hjmem : ((j : Int)) ∈ l.map Board.order := by
        rw [h]
        exact List.mem_map.mpr ⟨j, List.mem_range.mpr (Nat.lt_succ_self j), rfl⟩
      obtain ⟨c, hc, hcj⟩ := List.mem_map.mp hjmem
      have hcu : c.order ≤ u.order := hbd c hc
      have hle1 : j ≤ n := by
        rw [← hnu, hcj, Int.ofNat_eq_natCast] at hcu
        exact_mod_cast hcu
      have hnj : n = j := by omega
      subst hnj
      simp only [nextBoardOrder, hlast]
      rw [← hnu]
      simp

theorem runBoardCreates_orders (pid : String) :
    ∀ (creates : List (String × String)) (db : Db) (k : Nat),
      (db.boardsOf pid).map Board.order = (List.range k).map Int.ofNat →
      db.projects.any (fun p => p.id = pid) = true →
      (∀ c ∈ creates, c.2 ≠ "") →
      ((runBoardCreates pid db creates).boardsOf pid).map Board.order
        = (List.range (k + creates.length)).map Int.ofNat := by
  intro creates
  induction creates with
  | nil =>
    intro db k h hp _
    simpa using h
  | cons c rest ih =>
    obtain ⟨nid, name⟩ := c
    intro db k h hp hnames
    have hname : name ≠ "" := hnames (nid, name) (List.mem_cons.mpr (Or.inl rfl))
    have hnext : nextBoardOrder (db.boardsOf pid) = (k : Int) :=
      nextBoardOrder_of_orders_range k _ h
    have hstep : (createBoard db pid nid name).2
        = { db with boards := db.boards ++ [⟨nid, name, (k : Int), pid⟩] } := by
      simp [createBoard, hname, hp, hnext]
    have hsplit : ({ db with boards := db.boards ++ [⟨nid, name, (k : Int), pid⟩] } :
        Db).boardsOf pid = db.boardsOf pid ++ [⟨nid, name, (k : Int), pid⟩] := by
      simp [Db.boardsOf, List.filter_append]
    have h1 : (({ db with boards := db.boards ++ [⟨nid, name, (k : Int), pid⟩] } :
        Db).boardsOf pid).map Board.order = (List.range (k + 1)).map Int.ofNat := by
      rw [hsplit, List.map_append, h, List.range_succ, List.map_append]
      simp
    have h2 : ({ db with boards := db.boards ++ [⟨nid, name, (k : Int), pid⟩] } :
        Db).projects.any (fun p => p.id = pid) = true := hp
    have h3 : ∀ c ∈ rest, c.2 ≠ "" := fun c hc => hnames c (List.mem_cons.mpr (Or.inr hc))
    have := ih ({ db with boards := db.boards ++ [⟨nid, name, (k : Int), pid⟩] })
      (k + 1) h1 h2 h3
    rw [runBoardCreates, hstep]
    rw [List.length_cons, show k + (rest.length + 1) = k + 1 + rest.length from by omega]
    exact this

/-- C6: N creation requests issued serially against the same initially empty
parent scope — boards under one project, or tasks under one board — leave
the scope's children with order values exactly 0, 1, ..., N−1: no duplicates
and no gaps. -/
theorem serial_creates_dense_orders (db : Db) (pid bid : String)
    (boardCreates taskCreates : List (String × String))
    (hbempty : db.boardsOf pid = [])
    (htempty : db.tasksOf bid = [])
    (hpex : db.projects.any (fun p => p.id = pid) = true)
    (hbex : db.boards.any (fun b => b.id = bid) = true)
    (hnames : ∀ c ∈ boardCreates, c.2 ≠ "")
    (htitles : ∀ c ∈ taskCreates, c.2 ≠ "") :
    ((runBoardCreates pid db boardCreates).boardsOf pid).map Board.order
      = (List.range boardCreates.length).map Int.ofNat ∧
    ((runTaskCreates bid db taskCreates).tasksOf bid).map Task.order
      = (List.range taskCreates.length).map Int.ofNat := by
  constructor
  · have h0 : (db.boardsOf pid).map Board.order = (List.range 0).map Int.ofNat := by
      simp [hbempty]
    have := runBoardCreates_orders pid boardCreates db 0 h0 hpex hnames
    simpa using this
  · have h0 : (db.tasksOf bid).map Task.order = (List.range 0).map Int.ofNat := by
      simp [htempty]
    have := runTaskCreates_orders bid taskCreates db 0 h0 hbex htitles
    simpa using this

theorem serial_creates_dense_orders_witness :
    ((runBoardCreates "P1" dbFresh
        [("Nb1", "col a"), ("Nb2", "col b")]).boardsOf "P1").map Board.order
      = (List.range 2).map Int.ofNat ∧
    ((runTaskCreates "B9" dbFresh
        [("Nt1", "alpha"), ("Nt2", "beta"), ("Nt3", "gamma")]).tasksOf "B9").map Task.order
      = (List.range 3).map Int.ofNat :=
  serial_creates_dense_orders dbFresh "P1" "B9"
    [("Nb1", "col a"), ("Nb2", "col b")]
    [("Nt1", "alpha"), ("Nt2", "beta"), ("Nt3", "gamma")]
    (by decide) (by decide) (by decide) (by decide) (by decide) (by decide)

/-- C8: deleting a project removes, in the same act, every board of the
project and every task of those boards (the schema's cascade): afterwards a
lookup of any such board or task id — and of the project id — reports
nothing; and every surviving board and task still points to an existing
parent when referential integrity held before the delete. -/
theorem delete_project_cascades (db : Db) (pid : String)
    (hp : db.projects.any (fun p => p.id = pid) = true)
    (hbnodup : (db.boards.map Board.id).Nodup)
    (htnodup : (db.tasks.map Task.id).Nodup)
    (hbint : ∀ b ∈ db.boards, ∃ p ∈ db.projects, p.id = b.projectId)
    (htint : ∀ t ∈ db.tasks, ∃ b ∈ db.boards, b.id = t.boardId) :
    (deleteProject db pid).1 = 204 ∧
    (deleteProject db pid).2.findProject pid = none ∧
    (∀ b ∈ db.boards, b.projectId = pid → (deleteProject db pid).2.findBoard b.id = none) ∧
    (∀ t ∈ db.tasks, ∀ b ∈ db.boards, b.projectId = pid → t.boardId = b.id →
        (deleteProject db pid).2.findTask t.id = none) ∧
    (∀ b2 ∈ (deleteProject db pid).2.boards,
        ∃ p2 ∈ (deleteProject db pid).2.projects, p2.id = b2.projectId) ∧
    (∀ t2 ∈ (deleteProject db pid).2.tasks,
        ∃ b2 ∈ (deleteProject db pid).2.boards, b2.id = t2.boardId) := by
  simp only [deleteProject, hp, if_true]
  refine ⟨trivial, ?_, ?_, ?_, ?_, ?_⟩
  · rw [Db.findProject]
    rw [List.find?_eq_none]
    intro p hp2
    have := (List.mem_filter.mp hp2).2
    simpa using this
  · intro b hb hbpid
    rw [Db.findBoard]
    rw [List.find?_eq_none]
    intro x hx
    obtain ⟨hxmem, hxpid⟩ := List.mem_filter.mp hx
    have hxpid2 : ¬ x.projectId = pid := by simpa using hxpid
    intro hxb
    have hxid : x.id = b.id := by simpa using hxb
    have : x = b := List.inj_on_of_nodup_map hbnodup hxmem hb hxid
    exact hxpid2 (this ▸ hbpid)
  · intro t ht b hb hbpid htb
    rw [Db.findTask]
    rw [List.find?_eq_none]
    intro x hx
    obtain ⟨hxmem, hxdead⟩ := List.mem_filter.mp hx
    intro hxt
    have hxid : x.id = t.id := by simpa using hxt
    have hxeq : x = t := List.inj_on_of_nodup_map htnodup hxmem ht hxid
    subst hxeq
    have : (db.boards.filter (fun c => c.projectId = pid)).any
        (fun c => c.id = x.boardId) = true := by
      rw [List.any_eq_true]
      refine ⟨b, List.mem_filter.mpr ⟨hb, by simp [hbpid]⟩, by simp [htb.symm]⟩
    simp [this] at hxdead
  · intro b2 hb2
    obtain ⟨hbmem, hbpid⟩ := List.mem_filter.mp hb2
    have hbpid2 : ¬ b2.projectId = pid := by simpa using hbpid
    obtain ⟨p2, hp2, hpeq⟩ := hbint b2 hbmem
    refine ⟨p2, List.mem_filter.mpr ⟨hp2, ?_⟩, hpeq⟩
    simp [hpeq, hbpid2]
  · intro t2 ht2
    obtain ⟨htmem, htdead⟩ := List.mem_filter.mp ht2
    obtain ⟨b2, hb2, hbeq⟩ := htint t2 htmem
    have hb2pid : ¬ b2.projectId = pid := by
      intro hcon
      have : (db.boards.filter (fun c => c.projectId = pid)).any
          (fun c => c.id = t2.boardId) = true := by
        rw [List.any_eq_true]
        exact ⟨b2, List.mem_filter.mpr ⟨hb2, by simp [hcon]⟩, by simp [hbeq]⟩
      simp [this] at htdead
    exact ⟨b2, List.mem_filter.mpr ⟨hb2, by simp [hb2pid]⟩, hbeq⟩

theorem delete_project_cascades_witness :
    (deleteProject dbTwoProjects "P1").1 = 204 ∧
    (deleteProject dbTwoProjects "P1").2.findProject "P1" = none ∧
    (∀ b ∈ dbTwoProjects.boards, b.projectId = "P1" →
        (deleteProject dbTwoProjects "P1").2.findBoard b.id = none) ∧
    (∀ t ∈ dbTwoProjects.tasks, ∀ b ∈ dbTwoProjects.boards, b.projectId = "P1" →
        t.boardId = b.id → (deleteProject dbTwoProjects "P1").2.findTask t.id = none) ∧
    (∀ b2 ∈ (deleteProject dbTwoProjects "P1").2.boards,
        ∃ p2 ∈ (deleteProject dbTwoProjects "P1").2.projects, p2.id = b2.projectId) ∧
    (∀ t2 ∈ (deleteProject dbTwoProjects "P1").2.tasks,
        ∃ b2 ∈ (deleteProject dbTwoProjects "P1").2.boards, b2.id = t2.boardId) :=
  delete_project_cascades dbTwoProjects "P1" (by decide) (by decide) (by decide)
    (by decide) (by decide)

/-! Closed form of the reorder transaction. -/

theorem reorderFinal_id (B : String) (pairs : List (Nat × ReorderItem)) (t : Task) :
    (reorderFinal B pairs t).id = t.id := by
  simp only [reorderFinal]
  split <;> rfl

theorem reorderFinal_cons (B : String) (i : Nat) (item : ReorderItem)
    (rest : List (Nat × ReorderItem)) (hnotin : item.id ∉ rest.map (fun p => p.2.id))
    (t : Task) :
    reorderFinal B rest
        (if t.id = item.id then { t with order := (i : Int), boardId := B } else t)
      = reorderFinal B ((i, item) :: rest) t := by
  by_cases hct : t.id = item.id
  · rw [if_pos hct]
    have h1 : rest.find? (fun p => p.2.id = t.id) = none := by
      rw [List.find?_eq_none]
      intro x hx
      simp only [decide_eq_true_eq]
      intro hcon
      apply hnotin
      have hmm : x.2.id ∈ rest.map (fun p => p.2.id) :=
        List.mem_map_of_mem (fun p => p.2.id) hx
      rw [hcon, hct] at hmm
      exact hmm
    have h2 : ((i, item) :: rest).find? (fun p => p.2.id = t.id) = some (i, item) :=
      List.find?_cons_of_pos _ (by simp [hct])
    simp only [reorderFinal]
    rw [h1, h2]
  · rw [if_neg hct]
    have h2 : ((i, item) :: rest).find? (fun p => p.2.id = t.id)
        = rest.find? (fun p => p.2.id = t.id) :=
      List.find?_cons_of_neg _ (by simp; exact fun h => hct h.symm)
    simp only [reorderFinal]
    rw [h2]

theorem applyReorderUpdates_eq_some (boards : List Board) (B : String)
    (hB : boards.any (fun b => b.id = B) = true) :
    ∀ (pairs : List (Nat × ReorderItem)) (tasks : List Task),
      (pairs.map (fun p => p.2.id)).Nodup →
      (∀ p ∈ pairs, ∃ t ∈ tasks, t.id = p.2.id) →
      applyReorderUpdates boards B tasks pairs
        = some (tasks.map (reorderFinal B pairs)) := by
  intro pairs
  induction pairs with
  | nil =>
    intro tasks _ _
    simp only [applyReorderUpdates]
    have hmapid : tasks.map (reorderFinal B []) = tasks.map id :=
      List.map_congr_left (fun t _ => by simp [reorderFinal, id])
    rw [hmapid, List.map_id]
  | cons head rest ih =>
    obtain ⟨i, item⟩ := head
    intro tasks hnodup hmem
    have hany : tasks.any (fun t => t.id = item.id) = true := by
      rw [List.any_eq_true]
      obtain ⟨t, ht, hid⟩ := hmem (i, item) (List.mem_cons.mpr (Or.inl rfl))
      exact ⟨t, ht, by simp [hid]⟩
    have hnodup2 : (rest.map (fun p => p.2.id)).Nodup := by
      simp only [List.map_cons] at hnodup
      exact (List.nodup_cons.mp hnodup).2
    have hnotin : item.id ∉ rest.map (fun p => p.2.id) := by
      simp only [List.map_cons] at hnodup
      exact (List.nodup_cons.mp hnodup).1
    have hmem2 : ∀ p ∈ rest, ∃ t2 ∈ tasks.map (fun t =>
        if t.id = item.id then { t with order := (i : Int), boardId := B } else t),
        t2.id = p.2.id := by
      intro p hp
      obtain ⟨t, ht, hid⟩ := hmem p (List.mem_cons.mpr (Or.inr hp))
      refine ⟨_, List.mem_map_of_mem _ ht, ?_⟩
      split <;> simpa using hid
    simp only [applyReorderUpdates, hany, hB, Bool.and_self, if_true]
    rw [ih _ hnodup2 hmem2, List.map_map]
    congr 1
    apply List.map_congr_left
    intro t _
    exact reorderFinal_cons B i item rest hnotin t

/-! Lemmas connecting the enumerated batch to positions in the request. -/

theorem snd_mem_of_mem_enumFrom {α : Type} :
    ∀ (l : List α) (n : Nat) (p : Nat × α), p ∈ l.enumFrom n → p.2 ∈ l := by
  intro l
  induction l with
  | nil =>
    intro n p h
    cases h
  | cons a t ih =>
    intro n p h
    rcases List.mem_cons.mp h with rfl | h2
    · exact List.mem_cons.mpr (Or.inl rfl)
    · exact List.mem_cons.mpr (Or.inr (ih (n + 1) p h2))

theorem enumFrom_map_snd_ids :
    ∀ (items : List ReorderItem) (n : Nat),
      (items.enumFrom n).map (fun p => p.2.id) = items.map ReorderItem.id := by
  intro items
  induction items with
  | nil => intro n; rfl
  | cons it rest ih =>
    intro n
    simp only [List.enumFrom, List.map_cons]
    rw [ih (n + 1)]

theorem enumFrom_find?_of_nodup :
    ∀ (items : List ReorderItem), (items.map ReorderItem.id).Nodup →
      ∀ (n i : Nat) (hi : i < items.length),
        (items.enumFrom n).find? (fun p => p.2.id = (items.get ⟨i, hi⟩).id)
          = some (n + i, items.get ⟨i, hi⟩) := by
  intro items
  induction items with
  | nil =>
    intro _ n i hi
    exact absurd hi (Nat.not_lt_zero i)
  | cons it rest ih =>
    intro hnodup n i hi
    have hpair : (it :: rest).enumFrom n = (n, it) :: rest.enumFrom (n + 1) := rfl
    cases i with
    | zero =>
      rw [hpair]
      have hget : (it :: rest).get ⟨0, hi⟩ = it := rfl
      rw [hget]
      simp
    | succ j =>
      have hjlt : j < rest.length := by
        have := hi
        simpa [List.length_cons, Nat.succ_lt_succ_iff] using this
      have hget : (it :: rest).get ⟨j + 1, hi⟩ = rest.get ⟨j, hjlt⟩ := rfl
      rw [hget, hpair]
      have hnotin : it.id ∉ rest.map ReorderItem.id := by
        simp only [List.map_cons] at hnodup
        exact (List.nodup_cons.mp hnodup).1
      have hnodup2 : (rest.map ReorderItem.id).Nodup := by
        simp only [List.map_cons] at hnodup
        exact (List.nodup_cons.mp hnodup).2
      have hne : ¬ it.id = (rest.get ⟨j, hjlt⟩).id := by
        intro hcon
        apply hnotin
        rw [hcon]
        exact List.mem_map_of_mem ReorderItem.id (List.get_mem rest j hjlt)
      rw [List.find?_cons_of_neg _ (by simpa using hne)]
      rw [show n + (j + 1) = (n + 1) + j from by omega]
      exact ih hnodup2 (n + 1) j hjlt

/-- C4 counterexample: task T1 lives on board B2; a reorder request under
board B1 whose single element carries no new parent reference nevertheless
re-parents T1 to B1, so an element without a parent reference does not keep
its previous parent. -/
theorem reorder_reparents_counterexample :
    ((reorderTasksPost dbTwoBoards "B1" (some [⟨"T1"⟩])).2.findTask "T1").map Task.boardId
      = some "B1" ∧
    (dbTwoBoards.findTask "T1").map Task.boardId = some "B2" := by
  decide

/-- C4 amended: the entity matched by the element at 0-based position i of
the batch receives order = i, and its board reference is set to the
request's boardId unconditionally — elements carry no per-element parent
reference and the previous parent is never kept. -/
theorem reorder_assigns_index_and_board (db : Db) (B : String)
    (items : List ReorderItem)
    (hnodup : (items.map ReorderItem.id).Nodup)
    (hB : B ≠ "")
    (hBex : db.boards.any (fun b => b.id = B) = true)
    (hblank : items.any (fun it => it.id = "") = false)
    (hmem : ∀ it ∈ items, ∃ t ∈ db.tasks, t.id = it.id) :
    ∀ i (hi : i < items.length), ∀ t ∈ (reorderTasksPost db B (some items)).2.tasks,
      t.id = (items.get ⟨i, hi⟩).id → t.order = (i : Int) ∧ t.boardId = B := by
  intro i hi t htmem hid
  have hne : items.isEmpty = false := by
    cases items with
    | nil => exact absurd hi (Nat.not_lt_zero i)
    | cons a l => rfl
  have hpairs_nodup : ((items.enum).map (fun p => p.2.id)).Nodup := by
    rw [show items.enum = items.enumFrom 0 from rfl, enumFrom_map_snd_ids]
    exact hnodup
  have hpairs_mem : ∀ p ∈ items.enum, ∃ t2 ∈ db.tasks, t2.id = p.2.id := by
    intro p hp
    exact hmem p.2 (snd_mem_of_mem_enumFrom items 0 p hp)
  have hsome := applyReorderUpdates_eq_some db.boards B hBex items.enum db.tasks
    hpairs_nodup hpairs_mem
  rw [reorderTasksPost] at htmem
  simp only [hB, hne, hblank, if_false, Bool.false_eq_true, hsome] at htmem
  obtain ⟨t0, ht0, rfl⟩ := List.mem_map.mp htmem
  have ht0id : t0.id = (items.get ⟨i, hi⟩).id := by
    rw [← reorderFinal_id B items.enum t0]
    exact hid
  have hfind : (items.enum).find? (fun p => p.2.id = t0.id)
      = some (0 + i, items.get ⟨i, hi⟩) := by
    rw [ht0id]
    exact enumFrom_find?_of_nodup items hnodup 0 i hi
  constructor
  · simp only [reorderFinal, hfind]
    simp
  · simp only [reorderFinal, hfind]

theorem reorder_assigns_index_and_board_witness :
    (⟨"T2", "task two", none, ((0 : Nat) : Int), "B1"⟩ : Task).order = ((0 : Nat) : Int) ∧
    (⟨"T2", "task two", none, ((0 : Nat) : Int), "B1"⟩ : Task).boardId = "B1" :=
  reorder_assigns_index_and_board dbTwoTasks "B1" [⟨"T2"⟩, ⟨"T1"⟩] (by decide) (by decide)
    (by decide) (by decide) (by decide) 0 (by decide)
    ⟨"T2", "task two", none, 0, "B1"⟩ (by decide) (by decide)

/-! Helper lemmas for the sorted-read-back of a reordered board. -/

theorem nodup_indexOf_get {l : List String} (h : l.Nodup) (i : Fin l.length) :
    l.indexOf (l.get i) = i.1 := by
  have h1 : l.indexOf (l.get i) < l.length :=
    List.indexOf_lt_length.mpr (List.get_mem l i.1 i.2)
  have h2 : l.get ⟨l.indexOf (l.get i), h1⟩ = l.get i := List.indexOf_get h1
  have h3 := (List.Nodup.get_inj_iff h).mp h2
  exact congrArg Fin.val h3

theorem nodup_pairwise_indexOf_lt {l : List String} (h : l.Nodup) :
    l.Pairwise (fun a b => l.indexOf a < l.indexOf b) := by
  rw [List.pairwise_iff_get]
  intro i j hij
  rw [nodup_indexOf_get h i, nodup_indexOf_get h j]
  exact hij

theorem eq_of_perm_of_pairwise_lt {α : Type} (k : α → Nat) :
    ∀ (l₁ l₂ : List α), l₁.Perm l₂ →
      l₁.Pairwise (fun a b => k a < k b) → l₂.Pairwise (fun a b => k a < k b) →
      l₁ = l₂ := by
  intro l₁
  induction l₁ with
  | nil =>
    intro l₂ hperm _ _
    exact hperm.nil_eq
  | cons a t₁ ih =>
    intro l₂ hperm hp1 hp2
    cases l₂ with
    | nil =>
      have := hperm.eq_nil
      cases this
    | cons b t₂ =>
      obtain ⟨hp1head, hp1tail⟩ := List.pairwise_cons.mp hp1
      obtain ⟨hp2head, hp2tail⟩ := List.pairwise_cons.mp hp2
      have hab : a = b := by
        have hamem : a ∈ b :: t₂ := hperm.mem_iff.mp (List.mem_cons.mpr (Or.inl rfl))
        rcases List.mem_cons.mp hamem with h1 | h1
        · exact h1
        · have hba : k b < k a := hp2head a h1
          have hbmem : b ∈ a :: t₁ := hperm.symm.mem_iff.mp (List.mem_cons.mpr (Or.inl rfl))
          rcases List.mem_cons.mp hbmem with h2 | h2
          · exact h2.symm
          · have hab2 : k a < k b := hp1head b h2
            omega
      subst hab
      have htperm : t₁.Perm t₂ := hperm.cons_inv
      rw [ih t₂ htperm hp1tail hp2tail]

/-- C2: a reorder request whose element ids are a permutation of the
existing sibling task ids of board B commits with 200; afterwards each
task's order equals the 0-based position of its id in the request, and the
GET read of the board's tasks, sorted by order ascending, returns ids in
exactly the submitted sequence. -/
theorem reorder_permutation_sorted (db : Db) (B : String)
    (items : List ReorderItem)
    (hB : B ≠ "")
    (hBex : db.boards.any (fun b => b.id = B) = true)
    (hids : ∀ t ∈ db.tasks, t.id ≠ "")
    (htnodup : (db.tasks.map Task.id).Nodup)
    (hperm : (items.map ReorderItem.id).Perm ((db.tasksOf B).map Task.id)) :
    (reorderTasksPost db B (some items)).1 = 200 ∧
    (∀ i (hi : i < items.length), ∀ t ∈ (reorderTasksPost db B (some items)).2.tasks,
      t.id = (items.get ⟨i, hi⟩).id → t.order = (i : Int)) ∧
    (getBoardTasks (reorderTasksPost db B (some items)).2 B).map Task.id
      = items.map ReorderItem.id := by
  have hsibnodup : ((db.tasksOf B).map Task.id).Nodup := by
    have hsub : List.Sublist ((db.tasksOf B).map Task.id) (db.tasks.map Task.id) :=
      List.Sublist.map Task.id (List.filter_sublist db.tasks)
    exact List.Nodup.sublist hsub htnodup
  have hitemnodup : (items.map ReorderItem.id).Nodup := hperm.symm.nodup hsibnodup
  have hsibchar : ∀ t0 ∈ db.tasks, (t0.id ∈ items.map ReorderItem.id ↔ t0.boardId = B) := by
    intro t0 ht0
    rw [hperm.mem_iff]
    constructor
    · intro hmem2
      obtain ⟨t1, ht1, hid1⟩ := List.mem_map.mp hmem2
      have ht1mem : t1 ∈ db.tasks := List.mem_of_mem_filter ht1
      have ht1eq : t1 = t0 := List.inj_on_of_nodup_map htnodup ht1mem ht0 hid1
      subst ht1eq
      have := (List.mem_filter.mp ht1).2
      simpa using this
    · intro hbd
      exact List.mem_map_of_mem Task.id (List.mem_filter.mpr ⟨ht0, by simp [hbd]⟩)
  by_cases hnil : items = []
  · subst hnil
    have hsmap : (db.tasksOf B).map Task.id = [] := hperm.nil_eq.symm
    have hsibnil : db.tasksOf B = [] := List.map_eq_nil_iff.mp hsmap
    refine ⟨by simp [reorderTasksPost, hB], ?_, ?_⟩
    · intro i hi
      exact absurd hi (Nat.not_lt_zero i)
    · have hr : reorderTasksPost db B (some []) = (200, db) := by
        simp [reorderTasksPost, hB]
      rw [hr]
      simp [getBoardTasks, hsibnil]
  · have hne : items.isEmpty = false := by
      cases items with
      | nil => exact absurd rfl hnil
      | cons a l => rfl
    have hblank : items.any (fun it => it.id = "") = false := by
      rw [List.any_eq_false]
      intro it hit
      simp only [decide_eq_true_eq]
      intro hcon
      have h1 : it.id ∈ items.map ReorderItem.id := List.mem_map_of_mem _ hit
      rw [hperm.mem_iff] at h1
      obtain ⟨t1, ht1, hid1⟩ := List.mem_map.mp h1
      exact hids t1 (List.mem_of_mem_filter ht1) (hid1.trans hcon)
    have hmemtasks : ∀ it ∈ items, ∃ t0 ∈ db.tasks, t0.id = it.id := by
      intro it hit
      have h1 : it.id ∈ items.map ReorderItem.id := List.mem_map_of_mem _ hit
      rw [hperm.mem_iff] at h1
      obtain ⟨t1, ht1, hid1⟩ := List.mem_map.mp h1
      exact ⟨t1, List.mem_of_mem_filter ht1, hid1⟩
    have hpairs_nodup : ((items.enum).map (fun p => p.2.id)).Nodup := by
      rw [show items.enum = items.enumFrom 0 from rfl, enumFrom_map_snd_ids]
      exact hitemnodup
    have hpairs_mem : ∀ p ∈ items.enum, ∃ t2 ∈ db.tasks, t2.id = p.2.id :=
      fun p hp => hmemtasks p.2 (snd_mem_of_mem_enumFrom items 0 p hp)
    have hsome := applyReorderUpdates_eq_some db.boards B hBex items.enum db.tasks
      hpairs_nodup hpairs_mem
    have hres : reorderTasksPost db B (some items)
        = (200, { db with tasks := db.tasks.map (reorderFinal B items.enum) }) := by
      rw [reorderTasksPost]
      simp only [hB, hne, hblank, if_false, Bool.false_eq_true, hsome]
    have hgval : ∀ t0 ∈ db.tasks, t0.id ∈ items.map ReorderItem.id →
        reorderFinal B items.enum t0
          = { t0 with
              order := ((items.map ReorderItem.id).indexOf t0.id : Int),
              boardId := B } := by
      intro t0 ht0 hin
      have hlt : (items.map ReorderItem.id).indexOf t0.id < items.length := by
        have := List.indexOf_lt_length.mpr hin
        simpa [List.length_map] using this
      have h1 : (items.map ReorderItem.id).get ⟨(items.map ReorderItem.id).indexOf t0.id,
          by simpa [List.length_map] using hlt⟩ = t0.id := List.indexOf_get _
      rw [List.get_map] at h1
      have hfind := enumFrom_find?_of_nodup items hitemnodup 0 _ hlt
      rw [h1] at hfind
      rw [show items.enum = items.enumFrom 0 from rfl]
      simp only [reorderFinal, hfind]
      simp
    have horder : ∀ i (hi : i < items.length),
        ∀ t ∈ db.tasks.map (reorderFinal B items.enum),
        t.id = (items.get ⟨i, hi⟩).id → t.order = (i : Int) := by
      intro i hi t htmem hid
      obtain ⟨t0, ht0, rfl⟩ := List.mem_map.mp htmem
      have ht0id : t0.id = (items.get ⟨i, hi⟩).id := by
        rw [← reorderFinal_id B items.enum t0]
        exact hid
      have hfind : (items.enum).find? (fun p => p.2.id = t0.id)
          = some (0 + i, items.get ⟨i, hi⟩) := by
        rw [ht0id]
        exact enumFrom_find?_of_nodup items hitemnodup 0 i hi
      simp only [reorderFinal, hfind]
      simp
    have hgboard : ∀ t0 ∈ db.tasks,
        ((reorderFinal B items.enum t0).boardId = B ↔ t0.boardId = B) := by
      intro t0 ht0
      by_cases hin : t0.id ∈ items.map ReorderItem.id
      · rw [hgval t0 ht0 hin]
        simp [(hsibchar t0 ht0).mp hin]
      · have hfind : (items.enum).find? (fun p => p.2.id = t0.id) = none := by
          rw [List.find?_eq_none]
          intro x hx
          simp only [decide_eq_true_eq]
          intro hcon
          apply hin
          rw [← hcon]
          have hxm : x.2.id ∈ (items.enumFrom 0).map (fun p => p.2.id) :=
            List.mem_map_of_mem _ hx
          rw [enumFrom_map_snd_ids] at hxm
          exact hxm
        simp only [reorderFinal, hfind]
    have hfilter : (db.tasks.map (reorderFinal B items.enum)).filter
          (fun t => t.boardId = B)
        = (db.tasks.filter (fun t => t.boardId = B)).map (reorderFinal B items.enum) := by
      rw [List.filter_map]
      congr 1
      apply List.filter_congr
      intro t ht
      simp only [Function.comp]
      exact decide_eq_decide.mpr (hgboard t ht)
    refine ⟨by rw [hres], ?_, ?_⟩
    · rw [hres]
      exact horder
    · rw [hres]
      show (List.insertionSort taskLE ((db.tasks.map (reorderFinal B items.enum)).filter
          (fun t => t.boardId = B))).map Task.id = items.map ReorderItem.id
      rw [hfilter]
      have hMperm : (List.insertionSort taskLE ((db.tasks.filter
            (fun t => t.boardId = B)).map (reorderFinal B items.enum))).Perm
          ((db.tasks.filter (fun t => t.boardId = B)).map (reorderFinal B items.enum)) :=
        List.perm_insertionSort taskLE _
      have hSids : (((db.tasks.filter (fun t => t.boardId = B)).map
            (reorderFinal B items.enum)).map Task.id)
          = (db.tasks.filter (fun t => t.boardId = B)).map Task.id :=
        map_taskId_of_id_preserved (reorderFinal_id B items.enum) _
      have hMids_perm : ((List.insertionSort taskLE ((db.tasks.filter
            (fun t => t.boardId = B)).map (reorderFinal B items.enum))).map Task.id).Perm
          (items.map ReorderItem.id) := by
        have h1 := hMperm.map Task.id
        rw [hSids] at h1
        exact h1.trans hperm.symm
      have hMfacts : ∀ t ∈ List.insertionSort taskLE ((db.tasks.filter
            (fun t => t.boardId = B)).map (reorderFinal B items.enum)),
          t.order = ((items.map ReorderItem.id).indexOf t.id : Int)
            ∧ t.id ∈ items.map ReorderItem.id := by
        intro t ht
        have htS := hMperm.mem_iff.mp ht
        obtain ⟨t0, ht0, rfl⟩ := List.mem_map.mp htS
        obtain ⟨ht0mem, ht0bd⟩ := List.mem_filter.mp ht0
        have ht0bd2 : t0.boardId = B := by simpa using ht0bd
        have hin : t0.id ∈ items.map ReorderItem.id := (hsibchar t0 ht0mem).mpr ht0bd2
        rw [hgval t0 ht0mem hin]
        exact ⟨rfl, hin⟩
      have hMnodupids : ((List.insertionSort taskLE ((db.tasks.filter
            (fun t => t.boardId = B)).map (reorderFinal B items.enum))).map Task.id).Nodup :=
        hMids_perm.symm.nodup hitemnodup
      have hMle : (List.insertionSort taskLE ((db.tasks.filter
            (fun t => t.boardId = B)).map (reorderFinal B items.enum))).Pairwise taskLE :=
        List.sorted_insertionSort taskLE _
      have hMne : (List.insertionSort taskLE ((db.tasks.filter
            (fun t => t.boardId = B)).map (reorderFinal B items.enum))).Pairwise
          (fun t u => t.id ≠ u.id) :=
        (List.pairwise_map).mp hMnodupids
      have hMlt : ((List.insertionSort taskLE ((db.tasks.filter
            (fun t => t.boardId = B)).map (reorderFinal B items.enum))).map Task.id).Pairwise
          (fun a b => (items.map ReorderItem.id).indexOf a
            < (items.map ReorderItem.id).indexOf b) := by
        rw [List.pairwise_map]
        rw [List.pairwise_iff_get] at hMle hMne ⊢
        intro i j hij
        obtain ⟨hoi, hmi⟩ := hMfacts _ (List.get_mem _ i.1 i.2)
        obtain ⟨hoj, hmj⟩ := hMfacts _ (List.get_mem _ j.1 j.2)
        have hle := hMle i j hij
        have hne2 := hMne i j hij
        simp only [taskLE] at hle
        rw [hoi, hoj] at hle
        have hlenat : (items.map ReorderItem.id).indexOf ((List.insertionSort taskLE
              ((db.tasks.filter (fun t => t.boardId = B)).map
                (reorderFinal B items.enum))).get i).id
            ≤ (items.map ReorderItem.id).indexOf ((List.insertionSort taskLE
              ((db.tasks.filter (fun t => t.boardId = B)).map
                (reorderFinal B items.enum))).get j).id := by
          exact_mod_cast hle
        have hnee : ¬ (items.map ReorderItem.id).indexOf ((List.insertionSort taskLE
              ((db.tasks.filter (fun t => t.boardId = B)).map
                (reorderFinal B items.enum))).get i).id
            = (items.map ReorderItem.id).indexOf ((List.insertionSort taskLE
              ((db.tasks.filter (fun t => t.boardId = B)).map
                (reorderFinal B items.enum))).get j).id := by
          intro hcon
          exact hne2 ((List.indexOf_inj hmi hmj).mp hcon)
        omega
      have hidslt : (items.map ReorderItem.id).Pairwise
          (fun a b => (items.map ReorderItem.id).indexOf a
            < (items.map ReorderItem.id).indexOf b) :=
        nodup_pairwise_indexOf_lt hitemnodup
      exact eq_of_perm_of_pairwise_lt (fun s => (items.map ReorderItem.id).indexOf s)
        _ _ hMids_perm hMlt hidslt

theorem reorder_permutation_sorted_witness :
    (reorderTasksPost dbTwoTasks "B1" (some [⟨"T2"⟩, ⟨"T1"⟩])).1 = 200 ∧
    (∀ i (hi : i < ([⟨"T2"⟩, ⟨"T1"⟩] : List ReorderItem).length),
      ∀ t ∈ (reorderTasksPost dbTwoTasks "B1" (some [⟨"T2"⟩, ⟨"T1"⟩])).2.tasks,
      t.id = (([⟨"T2"⟩, ⟨"T1"⟩] : List ReorderItem).get ⟨i, hi⟩).id →
        t.order = (i : Int)) ∧
    (getBoardTasks (reorderTasksPost dbTwoTasks "B1" (some [⟨"T2"⟩, ⟨"T1"⟩])).2 "B1").map
        Task.id = ([⟨"T2"⟩, ⟨"T1"⟩] : List ReorderItem).map ReorderItem.id :=
  reorder_permutation_sorted dbTwoTasks "B1" [⟨"T2"⟩, ⟨"T1"⟩] (by decide) (by decide)
    (by decide) (by decide) (by decide)

end TaskFlow
